import Mathlib

/-!
Verification of the SLATE tile-based dense linear algebra engine.

Shallow embedding of the scheduling, dispatch and control-flow structure of:
* the blocked Cholesky factorization `potrf` (generic and `Target::Devices`
  specializations),
* the right-hand-side-moving triangular solve `work::trsmA`,
* the tridiagonal eigensolver driver `stedc`,
* the LAPACK-compatibility wrapper `slate_gesv`.

Loop bounds, guards, task dependencies and kernel-target choices are
transcribed from the source; single-tile kernels, MPI transport and the
LAPACK reference routines are external collaborators and are left abstract
(uninterpreted kernel parameters) or modelled from their documented
semantics, as noted on each definition.
-/

namespace Slate

/-- Execution-strategy tag, from `enum class Target`. -/
inductive Target
  | Host
  | HostTask
  | HostNest
  | HostBatch
  | Devices
deriving DecidableEq, Repr

/-- Stored-half tag, from `enum class Uplo`. -/
inductive Uplo
  | Lower
  | Upper
deriving DecidableEq, Repr

/-- Transform tag, from `enum class Op`. -/
inductive Op
  | NoTrans
  | Trans
  | ConjTrans
deriving DecidableEq, Repr

/-- Side tag, from `enum class Side`. -/
inductive Side
  | Left
  | Right
deriving DecidableEq, Repr

/-! ## Sweep structure of the factorization (potrf, generic specialization)

From the generic `potrf` specialization:
the column loop is `for (int64_t k = 0; k < A_nt; ++k)`;
the lookahead loop at step `k` is
`for (int64_t j = k+1; j < k+1+lookahead && j < A_nt; ++j)`, each iteration
updating column `j` (herk on `A.sub(j, j)` and gemm on
`A.sub(j+1, A_nt-1, j, j)`); the trailing-update task is created under the
guard `if (k+1+lookahead < A_nt)` and performs one herk on
`A.sub(k+1+lookahead, A_nt-1)`, i.e. columns `k+1+lookahead .. A_nt-1`.
-/

/-- Column indices visited by the factorization sweep
(`for (int64_t k = 0; k < A_nt; ++k)`). -/
def sweepColumns (mt : ℕ) : List ℕ :=
  List.range mt

/-- Columns updated by the lookahead tasks at step `k`
(loop `for (j = k+1; j < k+1+lookahead && j < A_nt; ++j)`;
the task at `j` updates tiles in column `j` only). -/
def lookaheadColumns (mt lookahead k : ℕ) : Finset ℕ :=
  Finset.Ico (k+1) (min (k+1+lookahead) mt)

/-- Columns updated by the trailing-update task at step `k`
(guard `if (k+1+lookahead < A_nt)`, herk on `A.sub(k+1+lookahead, A_nt-1)`). -/
def trailingColumns (mt lookahead k : ℕ) : Finset ℕ :=
  if k+1+lookahead < mt then Finset.Ico (k+1+lookahead) mt else ∅

/-- C2: the sweep visits each column exactly once, and at each step the
lookahead-updated and trailing-updated column sets are disjoint and cover
exactly columns `k+1 .. mt-1`. -/
theorem sweep_partition (mt lookahead k : ℕ)
    (_hmt : 1 ≤ mt) (_hla : lookahead ≤ mt - 1) (hk : k < mt) :
    ((sweepColumns mt).count k = 1 ∧
      ∀ j, j ∈ sweepColumns mt ↔ j < mt) ∧
    Disjoint (lookaheadColumns mt lookahead k) (trailingColumns mt lookahead k) ∧
    lookaheadColumns mt lookahead k ∪ trailingColumns mt lookahead k
      = Finset.Ico (k+1) mt := by
  refine ⟨⟨?_, fun j => List.mem_range⟩, ?_, ?_⟩
  · exact List.count_eq_one_of_mem (List.nodup_range mt) (List.mem_range.mpr hk)
  · unfold lookaheadColumns trailingColumns
    by_cases h : k+1+lookahead < mt
    · simp only [h, if_true]
      have hmin : min (k+1+lookahead) mt = k+1+lookahead := min_eq_left (le_of_lt h)
      rw [hmin]
      exact Finset.Ico_disjoint_Ico_consecutive _ _ _
    · simp only [h, if_false]
      exact Finset.disjoint_empty_right _
  · unfold lookaheadColumns trailingColumns
    by_cases h : k+1+lookahead < mt
    · simp only [h, if_true]
      have hmin : min (k+1+lookahead) mt = k+1+lookahead := min_eq_left (le_of_lt h)
      rw [hmin]
      exact Finset.Ico_union_Ico_eq_Ico (by omega) (le_of_lt h)
    · simp only [h, if_false, Finset.union_empty]
      have hmin : min (k+1+lookahead) mt = mt := min_eq_right (by omega)
      rw [hmin]

/-- Witness for `sweep_partition` at `mt = 4`, `lookahead = 1`, `k = 0`. -/
theorem sweep_partition_witness :
    (sweepColumns 4).count 0 = 1 ∧
    lookaheadColumns 4 1 0 ∪ trailingColumns 4 1 0 = Finset.Ico 1 4 := by
  have h := sweep_partition 4 1 0 (by decide) (by decide) (by decide)
  exact ⟨h.1.1, h.2.2⟩

/-! ## The trailing-update task and its dependencies (C3)

From the trailing-update task creation (identical pattern in both `potrf`
specializations and in `work::trsmA`, forward sweep):

```
if (k+1+lookahead < A_nt) {
    #pragma omp task depend(in:column[k]) \
                     depend(inout:column[k+1+lookahead]) \
                     depend(inout:column[A_nt-1])
    { ... herk on A.sub(k+1+lookahead, A_nt-1) ... }
}
```
-/

/-- An OpenMP task as a dependency record: tokens read (`depend(in:...)`),
tokens exclusively held (`depend(inout:...)`), and the columns it updates. -/
structure SchedTask where
  readDeps : Finset ℕ
  inoutDeps : Finset ℕ
  cols : Finset ℕ
deriving DecidableEq

/-- The trailing-update task created at step `k` (or none when the guard
`k+1+lookahead < mt` fails). -/
def trailingTask (mt lookahead k : ℕ) : Option SchedTask :=
  if k+1+lookahead < mt then
    some { readDeps := {k}
           inoutDeps := {k+1+lookahead, mt-1}
           cols := Finset.Ico (k+1+lookahead) mt }
  else
    none

/-- C3: the trailing-update task exists iff `k+1+lookahead < mt`; when it
exists it is the single task covering columns `k+1+lookahead .. mt-1` with a
read dependency on token `k` and inout dependencies on exactly tokens
`k+1+lookahead` and `mt-1`; and any two trailing tasks share the inout token
`mt-1`, so successive trailing updates are serialized. -/
theorem trailing_task_spec (mt lookahead : ℕ) :
    (∀ k, (trailingTask mt lookahead k).isSome ↔ k+1+lookahead < mt) ∧
    (∀ k t, trailingTask mt lookahead k = some t →
      t.cols = Finset.Ico (k+1+lookahead) mt ∧
      t.readDeps = {k} ∧
      t.inoutDeps = {k+1+lookahead, mt-1}) ∧
    (∀ k k' t t', trailingTask mt lookahead k = some t →
      trailingTask mt lookahead k' = some t' →
      mt-1 ∈ t.inoutDeps ∧ mt-1 ∈ t'.inoutDeps) := by
  refine ⟨fun k => ?_, fun k t ht => ?_, fun k k' t t' ht ht' => ?_⟩
  · unfold trailingTask
    by_cases h : k+1+lookahead < mt <;> simp [h]
  · unfold trailingTask at ht
    by_cases h : k+1+lookahead < mt
    · simp only [h, if_true, Option.some.injEq] at ht
      subst ht
      exact ⟨rfl, rfl, rfl⟩
    · simp [h] at ht
  · constructor
    · unfold trailingTask at ht
      by_cases h : k+1+lookahead < mt
      · simp only [h, if_true, Option.some.injEq] at ht
        subst ht
        simp
      · simp [h] at ht
    · unfold trailingTask at ht'
      by_cases h : k'+1+lookahead < mt
      · simp only [h, if_true, Option.some.injEq] at ht'
        subst ht'
        simp
      · simp [h] at ht'

/-- Witness for `trailing_task_spec` at `mt = 5`, `lookahead = 1`, `k = 0`:
the task exists and its dependency record is as stated. -/
theorem trailing_task_spec_witness :
    (trailingTask 5 1 0).isSome ∧
    (trailingTask 5 1 0 = some { readDeps := {0}, inoutDeps := {2, 4},
                                 cols := Finset.Ico 2 5 }) := by
  have h := trailing_task_spec 5 1
  refine ⟨(h.1 0).mpr (by decide), ?_⟩
  rfl

/-! ## Sweep direction of the right-hand-side-moving solve (C5)

From `work::trsmA`: after the side = Right reduction, the code branches on
`if (A.uplo() == Uplo::Lower)`; the Lower branch runs the forward sweep
`for (int64_t k = 0; k < mt; ++k)` and the other branch runs the backward
sweep `for (int64_t k = mt-1; k >= 0; --k)`.
-/

/-- The sequence of panel indices visited by the `trsmA` sweep, chosen by
the (effective) stored half of `A`. -/
def trsmASweep (uplo : Uplo) (mt : ℕ) : List ℕ :=
  if uplo = Uplo.Lower then List.range mt
  else (List.range mt).reverse

/-- C5: the sweep direction depends only on the stored half: Lower gives the
forward order `0, 1, .., mt-1` (strictly increasing), anything else gives the
backward order `mt-1, .., 0` (strictly decreasing); both visit every panel
index below `mt` exactly once. -/
theorem trsmA_sweep_direction (mt : ℕ) :
    (trsmASweep Uplo.Lower mt = List.range mt ∧
      (trsmASweep Uplo.Lower mt).Chain' (· < ·)) ∧
    (trsmASweep Uplo.Upper mt = (List.range mt).reverse ∧
      (trsmASweep Uplo.Upper mt).Chain' (· > ·)) ∧
    (∀ uplo k, k < mt → (trsmASweep uplo mt).count k = 1) := by
  refine ⟨⟨rfl, ?_⟩, ⟨rfl, ?_⟩, fun uplo k hk => ?_⟩
  · exact (List.pairwise_lt_range mt).chain'
  · exact (List.chain'_reverse).mpr (List.pairwise_lt_range mt).chain'
  · have hnd : (trsmASweep uplo mt).Nodup := by
      unfold trsmASweep
      by_cases h : uplo = Uplo.Lower <;> simp [h, List.nodup_range]
    have hmem : k ∈ trsmASweep uplo mt := by
      unfold trsmASweep
      by_cases h : uplo = Uplo.Lower <;> simp [h, hk]
    exact List.count_eq_one_of_mem hnd hmem

/-- Witness for `trsmA_sweep_direction` part 3 at `mt = 3`, `k = 1`,
`uplo = Upper`. -/
theorem trsmA_sweep_direction_witness :
    (trsmASweep Uplo.Upper 3).count 1 = 1 :=
  (trsmA_sweep_direction 3).2.2 Uplo.Upper 1 (by decide)

/-! ## Event traces of the two potrf specializations (C4, C7, C9)

The body of each `potrf` specialization is modelled as the sequence of
kernel invocations, communication calls and resource-management calls it
issues, in program order.  Compute events record the submatrix bounds of
the corresponding `A.sub(...)` arguments and the `Target` the kernel is
instantiated at; `hi` always stands for `A_nt - 1`.
-/

/-- Tile-release strategy, from `enum class TileReleaseStrategy`. -/
inductive TileReleaseStrategy
  | None
  | Internal
  | Slate
  | All
deriving DecidableEq, Repr

/-- One call issued by a `potrf` specialization. -/
inductive PotrfEvent
  /-- `internal::potrf(A.sub(k, k))` — factor the diagonal tile. -/
  | factor (k : ℕ) (tgt : Target)
  /-- `A.tileBcast(k, k, A.sub(k+1, hi, k, k))`. -/
  | bcastDiag (k hi : ℕ)
  /-- `internal::trsm(Side::Right, 1, conjTranspose(Tkk), A.sub(k+1, hi, k, k))`. -/
  | panelSolve (k hi : ℕ) (tgt : Target)
  /-- Entry `{i, k, ...}` of `bcast_list_A` passed to `listBcastMT`. -/
  | bcastPanel (i k : ℕ)
  /-- `internal::herk(-1, A.sub(j, j, k, k), 1, A.sub(j, j))` — lookahead. -/
  | lookHerk (k j : ℕ) (tgt : Target)
  /-- `internal::gemm(-1, A.sub(j+1, hi, k, k), conjTranspose(Ajk), 1,
  A.sub(j+1, hi, j, j))` — lookahead. -/
  | lookGemm (k j hi : ℕ) (tgt : Target)
  /-- `internal::herk(-1, A.sub(kl, hi, k, k), 1, A.sub(kl, hi))` —
  trailing update, `kl = k+1+lookahead`. -/
  | trailHerk (k kl hi : ℕ) (tgt : Target)
  /-- `A.allocateBatchArrays(0, num_queues)`. -/
  | allocBatchArrays (numQueues : ℕ)
  /-- `A.reserveDeviceWorkspace()`. -/
  | reserveDeviceWorkspace
  /-- `A.tileUpdateAllOrigin()`. -/
  | updateAllOrigin
  /-- `A.releaseWorkspace()`. -/
  | releaseWorkspace
  /-- `potrfReleasePanel(A, k)`. -/
  | releasePanelTiles (k : ℕ)
  /-- `potrfCleanTiles(A, k)`. -/
  | cleanTiles (k : ℕ)
deriving DecidableEq, Repr

/-- Lookahead indices at step `k`, from the loop header
`for (int64_t j = k+1; j < k+1+lookahead && j < A_nt; ++j)`. -/
def lookaheadList (mt lookahead k : ℕ) : List ℕ :=
  List.range' (k+1) (min (k+1+lookahead) mt - (k+1))

/-- Calls issued at step `k` of the generic `potrf` specialization:
panel task, then the lookahead tasks, then the trailing-update task. -/
def potrfStep (tgt : Target) (mt lookahead k : ℕ) : List PotrfEvent :=
  ([PotrfEvent.factor k Target.HostTask]
    ++ (if k+1 ≤ mt-1 then [PotrfEvent.bcastDiag k (mt-1)] else [])
    ++ (if k+1 ≤ mt-1 then [PotrfEvent.panelSolve k (mt-1) Target.HostTask] else [])
    ++ ((List.range' (k+1) (mt - (k+1))).map (fun i => PotrfEvent.bcastPanel i k)))
  ++ ((lookaheadList mt lookahead k).map (fun j =>
        [PotrfEvent.lookHerk k j Target.HostTask]
        ++ (if j+1 ≤ mt-1 then [PotrfEvent.lookGemm k j (mt-1) Target.HostTask]
            else []))).flatten
  ++ (if k+1+lookahead < mt
      then [PotrfEvent.trailHerk k (k+1+lookahead) (mt-1) tgt] else [])

/-- Trace of the generic `potrf` specialization (any `target` template
argument): the column sweep followed by `tileUpdateAllOrigin` and
`releaseWorkspace`. -/
def potrfGeneric (tgt : Target) (mt lookahead : ℕ) : List PotrfEvent :=
  ((List.range mt).map (potrfStep tgt mt lookahead)).flatten
  ++ [PotrfEvent.updateAllOrigin, PotrfEvent.releaseWorkspace]

/-- Calls issued at step `k` of the `Target::Devices` specialization:
panel task (diagonal factor on `HostTask`, panel trsm on `Devices`),
then the trailing-update task, then the lookahead tasks (all `Devices`),
then the strategy-dependent tile-release tasks. -/
def potrfDevicesStep (mt lookahead k : ℕ) (strategy : TileReleaseStrategy) :
    List PotrfEvent :=
  ([PotrfEvent.factor k Target.HostTask]
    ++ (if k+1 ≤ mt-1 then [PotrfEvent.bcastDiag k (mt-1)] else [])
    ++ (if k+1 ≤ mt-1 then [PotrfEvent.panelSolve k (mt-1) Target.Devices] else [])
    ++ ((List.range' (k+1) (mt - (k+1))).map (fun i => PotrfEvent.bcastPanel i k)))
  ++ (if k+1+lookahead < mt
      then [PotrfEvent.trailHerk k (k+1+lookahead) (mt-1) Target.Devices] else [])
  ++ ((lookaheadList mt lookahead k).map (fun j =>
        [PotrfEvent.lookHerk k j Target.Devices]
        ++ (if j+1 ≤ mt-1 then [PotrfEvent.lookGemm k j (mt-1) Target.Devices]
            else []))).flatten
  ++ (if strategy = TileReleaseStrategy.All then
        (if 0 < lookahead ∧ lookahead ≤ k
         then [PotrfEvent.releasePanelTiles (k - lookahead)] else [])
      else [])
  ++ (if strategy = TileReleaseStrategy.Slate
      then [PotrfEvent.cleanTiles k] else [])

/-- Trace of the `Target::Devices` specialization:
`allocateBatchArrays(0, 2 + lookahead)` and `reserveDeviceWorkspace()`
before the column loop, `tileUpdateAllOrigin()` and `releaseWorkspace()`
after it. -/
def potrfDevices (mt lookahead : ℕ) (strategy : TileReleaseStrategy) :
    List PotrfEvent :=
  [PotrfEvent.allocBatchArrays (2 + lookahead), PotrfEvent.reserveDeviceWorkspace]
  ++ ((List.range mt).map (fun k => potrfDevicesStep mt lookahead k strategy)).flatten
  ++ [PotrfEvent.updateAllOrigin, PotrfEvent.releaseWorkspace]

/-- The public `potrf` entry point: dispatch on `Option::Target`
(`case Host / HostTask / HostNest / HostBatch / Devices`); `Devices` selects
the device specialization, everything else the generic one. -/
def potrfTrace (tgt : Target) (mt lookahead : ℕ)
    (strategy : TileReleaseStrategy) : List PotrfEvent :=
  match tgt with
  | Target.Host => potrfGeneric Target.HostTask mt lookahead
  | Target.HostTask => potrfGeneric Target.HostTask mt lookahead
  | Target.HostNest => potrfGeneric Target.HostNest mt lookahead
  | Target.HostBatch => potrfGeneric Target.HostBatch mt lookahead
  | Target.Devices => potrfDevices mt lookahead strategy

/-- Membership in a conditionally-empty list. -/
theorem mem_ite_nil {α : Type} {c : Prop} [Decidable c] (l : List α) (e : α) :
    (e ∈ if c then l else []) ↔ c ∧ e ∈ l := by
  by_cases hc : c <;> simp [hc]

/-- Every diagonal-tile factorization in a generic-specialization step is a
`HostTask` call on the step's own column. -/
theorem potrfStep_factor (tgt : Target) (mt lookahead k j : ℕ) (t : Target)
    (h : PotrfEvent.factor j t ∈ potrfStep tgt mt lookahead k) :
    j = k ∧ t = Target.HostTask := by
  simp [potrfStep, lookaheadList, mem_ite_nil] at h
  exact h

/-- Every diagonal-tile factorization in a Devices-specialization step is a
`HostTask` call on the step's own column. -/
theorem potrfDevicesStep_factor (mt lookahead k j : ℕ)
    (strategy : TileReleaseStrategy) (t : Target)
    (h : PotrfEvent.factor j t ∈ potrfDevicesStep mt lookahead k strategy) :
    j = k ∧ t = Target.HostTask := by
  simp [potrfDevicesStep, lookaheadList, mem_ite_nil] at h
  exact h

/-- Every trailing-update herk in a Devices-specialization step runs on
`Devices` and covers `A.sub(k+1+lookahead, mt-1)`. -/
theorem potrfDevicesStep_trailHerk (mt lookahead k k' kl hi : ℕ)
    (strategy : TileReleaseStrategy) (t : Target)
    (h : PotrfEvent.trailHerk k' kl hi t ∈ potrfDevicesStep mt lookahead k strategy) :
    k' = k ∧ kl = k+1+lookahead ∧ hi = mt-1 ∧ t = Target.Devices := by
  simp [potrfDevicesStep, lookaheadList, mem_ite_nil] at h
  exact h.2

/-- C4: through the public dispatch, for every selected target the
diagonal-tile factorization is always issued with the `HostTask` strategy;
in the Devices specialization every step still factors `A(k, k)` via
`HostTask` while every trailing update it issues runs on `Devices`. -/
theorem panel_factor_always_hosttask (tgt : Target) (mt lookahead : ℕ)
    (strategy : TileReleaseStrategy) :
    (∀ j t, PotrfEvent.factor j t ∈ potrfTrace tgt mt lookahead strategy →
      t = Target.HostTask) ∧
    (∀ k, k < mt →
      PotrfEvent.factor k Target.HostTask ∈ potrfTrace tgt mt lookahead strategy) ∧
    (∀ k kl hi t, PotrfEvent.trailHerk k kl hi t ∈ potrfDevices mt lookahead strategy →
      t = Target.Devices) := by
  have hgen : ∀ tg j t, PotrfEvent.factor j t ∈ potrfGeneric tg mt lookahead →
      t = Target.HostTask := by
    intro tg j t h
    simp only [potrfGeneric, List.mem_append, List.mem_flatten, List.mem_map,
      List.mem_range, List.mem_cons, List.mem_singleton] at h
    rcases h with ⟨l, ⟨k, _, rfl⟩, hl⟩ | h | h | h
    · exact (potrfStep_factor tg mt lookahead k j t hl).2
    · exact absurd h (by simp)
    · exact absurd h (by simp)
    · exact absurd h (by simp)
  have hdev : ∀ j t, PotrfEvent.factor j t ∈ potrfDevices mt lookahead strategy →
      t = Target.HostTask := by
    intro j t h
    simp only [potrfDevices, List.mem_append, List.mem_flatten, List.mem_map,
      List.mem_range, List.mem_cons, List.mem_singleton] at h
    rcases h with ((h | h | h) | ⟨l, ⟨k, _, rfl⟩, hl⟩) | h | h | h
    · exact absurd h (by simp)
    · exact absurd h (by simp)
    · exact absurd h (by simp)
    · exact (potrfDevicesStep_factor mt lookahead k j strategy t hl).2
    · exact absurd h (by simp)
    · exact absurd h (by simp)
    · exact absurd h (by simp)
  have hgenmem : ∀ tg k, k < mt →
      PotrfEvent.factor k Target.HostTask ∈ potrfGeneric tg mt lookahead := by
    intro tg k hk
    unfold potrfGeneric
    refine List.mem_append_left _ (List.mem_flatten.mpr ⟨potrfStep tg mt lookahead k,
      List.mem_map_of_mem _ (List.mem_range.mpr hk), ?_⟩)
    unfold potrfStep
    simp
  refine ⟨?_, ?_, ?_⟩
  · intro j t h
    cases tgt <;> simp only [potrfTrace] at h
    case Devices => exact hdev j t h
    all_goals exact hgen _ j t h
  · intro k hk
    cases tgt <;> simp only [potrfTrace]
    case Devices =>
      unfold potrfDevices
      refine List.mem_append_left _ (List.mem_append_right _
        (List.mem_flatten.mpr ⟨potrfDevicesStep mt lookahead k strategy,
          List.mem_map_of_mem _ (List.mem_range.mpr hk), ?_⟩))
      unfold potrfDevicesStep
      simp
    all_goals exact hgenmem _ k hk
  · intro k kl hi t h
    simp only [potrfDevices, List.mem_append, List.mem_flatten, List.mem_map,
      List.mem_range, List.mem_cons, List.mem_singleton] at h
    rcases h with ((h | h | h) | ⟨l, ⟨k0, _, rfl⟩, hl⟩) | h | h | h
    · exact absurd h (by simp)
    · exact absurd h (by simp)
    · exact absurd h (by simp)
    · exact (potrfDevicesStep_trailHerk mt lookahead k0 k kl hi strategy t hl).2.2.2
    · exact absurd h (by simp)
    · exact absurd h (by simp)
    · exact absurd h (by simp)

/-- Witness for `panel_factor_always_hosttask` at `tgt = Devices`, `mt = 3`,
`lookahead = 1`, `k = 1`. -/
theorem panel_factor_always_hosttask_witness :
    PotrfEvent.factor 1 Target.HostTask
      ∈ potrfTrace Target.Devices 3 1 TileReleaseStrategy.All :=
  (panel_factor_always_hosttask Target.Devices 3 1 TileReleaseStrategy.All).2.1
    1 (by decide)

/-- C7: in the Devices specialization, `2 + lookahead` batch-array queues
are allocated and device workspace is reserved before the column loop
starts, the workspace is released after the loop completes, and no step of
the loop allocates batch arrays, reserves device workspace, or releases the
workspace. -/
theorem devices_workspace_reservation (mt lookahead : ℕ)
    (strategy : TileReleaseStrategy) :
    potrfDevices mt lookahead strategy
      = [PotrfEvent.allocBatchArrays (lookahead + 2),
         PotrfEvent.reserveDeviceWorkspace]
        ++ ((List.range mt).map
              (fun k => potrfDevicesStep mt lookahead k strategy)).flatten
        ++ [PotrfEvent.updateAllOrigin, PotrfEvent.releaseWorkspace] ∧
    (∀ e ∈ ((List.range mt).map
              (fun k => potrfDevicesStep mt lookahead k strategy)).flatten,
       (∀ q, e ≠ PotrfEvent.allocBatchArrays q) ∧
       e ≠ PotrfEvent.reserveDeviceWorkspace ∧
       e ≠ PotrfEvent.releaseWorkspace) := by
  constructor
  · unfold potrfDevices
    rw [Nat.add_comm 2 lookahead]
  · intro e he
    obtain ⟨l, hlmem, hel⟩ := List.mem_flatten.mp he
    obtain ⟨k, _, rfl⟩ := List.mem_map.mp hlmem
    refine ⟨fun q => ?_, ?_, ?_⟩ <;> intro h <;> subst h <;>
      simp [potrfDevicesStep, lookaheadList, mem_ite_nil] at hel

/-- Witness for `devices_workspace_reservation` at `mt = 3`, `lookahead = 1`,
strategy `All`: the first two events and the final event of the trace. -/
theorem devices_workspace_reservation_witness :
    (potrfDevices 3 1 TileReleaseStrategy.All).take 2
      = [PotrfEvent.allocBatchArrays 3, PotrfEvent.reserveDeviceWorkspace] ∧
    (potrfDevices 3 1 TileReleaseStrategy.All).getLast?
      = some PotrfEvent.releaseWorkspace := by
  have h := (devices_workspace_reservation 3 1 TileReleaseStrategy.All).1
  rw [h]
  constructor <;> rfl

/-! ## Logical-state semantics of a potrf trace (C9)

Tile values are abstract (`α`); the single-tile kernels are external
collaborators, so each kernel call is an uninterpreted transformer of the
tile state, applied to the submatrix bounds the trace records.
Communication events (`tileBcast`, `listBcastMT` entries) and
memory-management events (`allocateBatchArrays`, `reserveDeviceWorkspace`,
`tileUpdateAllOrigin`, `releaseWorkspace`, tile-release tasks) move, copy
or free physical instances but never change a tile's logical value, so on
the logical state they are the identity.
-/

/-- The external single-tile kernel library, uninterpreted.  `potrfTile` is
the single-tile factorization `internal::potrf` on one diagonal tile; the
others take the submatrix bounds recorded in the corresponding event. -/
structure Kernels (α : Type) where
  potrfTile : α → α
  trsmPanel : ℕ → ℕ → ((ℕ × ℕ) → α) → ((ℕ × ℕ) → α)
  herkDiag : ℕ → ℕ → ((ℕ × ℕ) → α) → ((ℕ × ℕ) → α)
  gemmPanel : ℕ → ℕ → ℕ → ((ℕ × ℕ) → α) → ((ℕ × ℕ) → α)
  herkTrail : ℕ → ℕ → ℕ → ((ℕ × ℕ) → α) → ((ℕ × ℕ) → α)

/-- Effect of one trace event on the logical tile state. -/
def applyEvent {α : Type} (K : Kernels α) (st : (ℕ × ℕ) → α) :
    PotrfEvent → ((ℕ × ℕ) → α)
  | PotrfEvent.factor k _ => Function.update st (k, k) (K.potrfTile (st (k, k)))
  | PotrfEvent.panelSolve k hi _ => K.trsmPanel k hi st
  | PotrfEvent.lookHerk k j _ => K.herkDiag k j st
  | PotrfEvent.lookGemm k j hi _ => K.gemmPanel k j hi st
  | PotrfEvent.trailHerk k kl hi _ => K.herkTrail k kl hi st
  | _ => st

/-- Run a potrf trace on a logical tile state. -/
def potrfExec {α : Type} (K : Kernels α) (events : List PotrfEvent)
    (st : (ℕ × ℕ) → α) : (ℕ × ℕ) → α :=
  events.foldl (applyEvent K) st

/-- A single invocation of the single-tile factorization kernel on the one
diagonal tile, `internal::potrf(A.sub(0, 0))`. -/
def singleTileFactor {α : Type} (K : Kernels α) (st : (ℕ × ℕ) → α) :
    (ℕ × ℕ) → α :=
  Function.update st (0, 0) (K.potrfTile (st (0, 0)))

/-- C9: for a single-tile matrix (`mt = 1`) and any lookahead, the generic
factorization sweep emits no lookahead task, no trailing-update task and no
broadcast — its whole trace is the one diagonal factorization followed by
the closing memory-management calls — and its result on the logical tile
state equals a single invocation of the single-tile factorization kernel. -/
theorem potrf_single_tile {α : Type} (tgt : Target) (lookahead : ℕ)
    (K : Kernels α) (st : (ℕ × ℕ) → α) :
    potrfGeneric tgt 1 lookahead
      = [PotrfEvent.factor 0 Target.HostTask,
         PotrfEvent.updateAllOrigin, PotrfEvent.releaseWorkspace] ∧
    potrfExec K (potrfGeneric tgt 1 lookahead) st = singleTileFactor K st := by
  have h1 : ¬ (0+1 ≤ 1-1) := by omega
  have h2 : ¬ (0+1+lookahead < 1) := by omega
  have h3 : min (0+1+lookahead) 1 - (0+1) = 0 := by omega
  have htrace : potrfGeneric tgt 1 lookahead
      = [PotrfEvent.factor 0 Target.HostTask,
         PotrfEvent.updateAllOrigin, PotrfEvent.releaseWorkspace] := by
    have hr : List.range 1 = [0] := rfl
    simp [potrfGeneric, hr, potrfStep, lookaheadList, h1, h2, h3]
  refine ⟨htrace, ?_⟩
  rw [htrace]
  rfl

/-! ## Reduction of side = Right to side = Left in trsmA (C6)

From `work::trsmA`:

```
if (side == Side::Right) {
    if (A.op() == Op::ConjTrans || B.op() == Op::ConjTrans) {
        A = conj_transpose(A); B = conj_transpose(B); alpha = conj(alpha);
    }
    else {
        A = transpose(A); B = transpose(B);
    }
}
```

so `op(B) = op(A)^{-1} * op(B)` is computed by the left-case sweep.  The
transform applied to the operands is chosen by the condition below; the
algebraic content is proved over complex matrices, `star` being complex
conjugation.
-/

open scoped Matrix

/-- The branch condition `A.op() == Op::ConjTrans || B.op() == Op::ConjTrans`:
`true` selects conjugate-transposition of both operands (plus conjugation of
`alpha`), `false` plain transposition of both. -/
def trsmARightUsesConj (Aop Bop : Op) : Bool :=
  Aop == Op.ConjTrans || Bop == Op.ConjTrans

/-- C6: the side = Right triangular solve `X * A = alpha • B` is equivalent
to the side = Left solve on the transformed operands: under the conjugate
branch, `X` solves the right equation iff `Xᴴ` solves
`Aᴴ * Xᴴ = conj(alpha) • Bᴴ`; under the plain branch, iff `Xᵀ` solves
`Aᵀ * Xᵀ = alpha • Bᵀ`; and when `A` is invertible the transformed result
is the explicit left-side solve `op(A)⁻¹ * (op(alpha) • op(B))`. -/
theorem trsmA_right_to_left {n m : ℕ} (A : Matrix (Fin n) (Fin n) ℂ)
    (B X : Matrix (Fin m) (Fin n) ℂ) (α : ℂ) (Aop Bop : Op) :
    (trsmARightUsesConj Aop Bop = true →
      (X * A = α • B ↔ Aᴴ * Xᴴ = (star α) • Bᴴ)) ∧
    (trsmARightUsesConj Aop Bop = false →
      (X * A = α • B ↔ Aᵀ * Xᵀ = α • Bᵀ)) ∧
    (IsUnit A.det → X * A = α • B →
      Xᵀ = (Aᵀ)⁻¹ * (α • Bᵀ) ∧ Xᴴ = (Aᴴ)⁻¹ * ((star α) • Bᴴ)) := by
  have htrans : X * A = α • B ↔ Aᵀ * Xᵀ = α • Bᵀ := by
    constructor
    · intro h
      rw [← Matrix.transpose_mul, h, Matrix.transpose_smul]
    · intro h
      have h2 := congrArg Matrix.transpose h
      simpa [Matrix.transpose_mul, Matrix.transpose_smul] using h2
  have hconj : X * A = α • B ↔ Aᴴ * Xᴴ = (star α) • Bᴴ := by
    constructor
    · intro h
      rw [← Matrix.conjTranspose_mul, h, Matrix.conjTranspose_smul]
    · intro h
      have h2 := congrArg Matrix.conjTranspose h
      simpa [Matrix.conjTranspose_mul, Matrix.conjTranspose_smul] using h2
  refine ⟨fun _ => hconj, fun _ => htrans, fun hA hX => ⟨?_, ?_⟩⟩
  · have h := htrans.mp hX
    have hAT : IsUnit (Aᵀ).det := by rwa [Matrix.det_transpose]
    calc Xᵀ = (Aᵀ)⁻¹ * (Aᵀ * Xᵀ) := by
              rw [← Matrix.mul_assoc, Matrix.nonsing_inv_mul _ hAT, Matrix.one_mul]
    _ = (Aᵀ)⁻¹ * (α • Bᵀ) := by rw [h]
  · have h := hconj.mp hX
    have hAH : IsUnit (Aᴴ).det := by
      rw [Matrix.det_conjTranspose]
      exact hA.star
    calc Xᴴ = (Aᴴ)⁻¹ * (Aᴴ * Xᴴ) := by
              rw [← Matrix.mul_assoc, Matrix.nonsing_inv_mul _ hAH, Matrix.one_mul]
    _ = (Aᴴ)⁻¹ * ((star α) • Bᴴ) := by rw [h]

/-- Witness for `trsmA_right_to_left` at `n = m = 1`, `A = B = X = 1`,
`alpha = 1`, `Aop = Bop = NoTrans` (plain-transpose branch). -/
theorem trsmA_right_to_left_witness :
    ((1 : Matrix (Fin 1) (Fin 1) ℂ) * 1 = (1 : ℂ) • 1 ↔
      (1 : Matrix (Fin 1) (Fin 1) ℂ)ᵀ * (1 : Matrix (Fin 1) (Fin 1) ℂ)ᵀ
        = (1 : ℂ) • (1 : Matrix (Fin 1) (Fin 1) ℂ)ᵀ) ∧
    (1 : Matrix (Fin 1) (Fin 1) ℂ)ᵀ
      = ((1 : Matrix (Fin 1) (Fin 1) ℂ)ᵀ)⁻¹ *
          ((1 : ℂ) • (1 : Matrix (Fin 1) (Fin 1) ℂ)ᵀ) := by
  have h := @trsmA_right_to_left 1 1 (1 : Matrix (Fin 1) (Fin 1) ℂ) 1 1 1 Op.NoTrans Op.NoTrans
  refine ⟨h.2.1 rfl, ?_⟩
  exact (h.2.2 (by simp) (by simp)).1

/-! ## The tridiagonal eigensolver driver stedc (C8, C10)

From `src/stedc.cc`.  Scalar data is modelled exactly over `ℚ`; the
max-norm `Anorm = lapack::lanst(Norm::Max, n, D, E)` is computed by the
external LAPACK routine, so the embedding takes its result, classified as a
finite rational or as an Inf/NaN special (`std::isinf`/`std::isnan`).
`lapack::lascl(General, 0, 0, cfrom, cto, ...)` multiplies an array by
`cto/cfrom` (its documented semantics).  The divide-and-conquer pipeline
`stedc_solve`/`stedc_sort` writing the eigenvalues into `D` is external and
is an uninterpreted function parameter `solve`.
-/

/-- Classification of the norm value returned by `lapack::lanst`. -/
inductive FpVal
  | finite (x : ℚ)
  | inf
  | nan
deriving DecidableEq, Repr

/-- `lapack::lascl(MatrixType::General, 0, 0, cfrom, cto, ...)`: multiply
every entry by `cto / cfrom`. -/
def lascl (cfrom cto : ℚ) (v : List ℚ) : List ℚ :=
  v.map (fun x => x * (cto / cfrom))

/-- Result of a `stedc` run that did not throw: the arguments handed to the
divide-and-conquer solve (if it was reached), the final contents of `D` and
`E`, and whether the eigenvector matrix `Q` (and workspaces) were written. -/
structure StedcRun where
  solveArgs : Option (List ℚ × List ℚ)
  D : List ℚ
  E : List ℚ
  qWritten : Bool
deriving DecidableEq, Repr

/-- Control flow of `stedc(D, E, Q, opts)`:
`if (Anorm == zero) return;` — untouched state;
`if (isinf(Anorm) || isnan(Anorm)) throw domain_error(...)` — thrown before
any of `D`, `E`, `Q` is modified;
otherwise scale `D` and `E` by `lascl(Anorm, 1, ·)` (unconditionally), run
the solve on the scaled data, and scale the eigenvalues back with
`lascl(1, Anorm, ·)`. -/
def stedc (solve : List ℚ → List ℚ → List ℚ) (Anorm : FpVal)
    (D E : List ℚ) : Except String StedcRun :=
  match Anorm with
  | FpVal.finite a =>
    if a = 0 then
      Except.ok { solveArgs := none, D := D, E := E, qWritten := false }
    else
      Except.ok { solveArgs := some (lascl a 1 D, lascl a 1 E)
                  D := lascl 1 a (solve (lascl a 1 D) (lascl a 1 E))
                  E := lascl a 1 E
                  qWritten := true }
  | FpVal.inf => Except.error "Input matrix contains Inf or NaN"
  | FpVal.nan => Except.error "Input matrix contains Inf or NaN"

/-- C8: for every nonzero finite norm `a` — with no further condition on its
magnitude — `stedc` hands the solve exactly the inputs scaled by `1/a`,
multiplies the computed eigenvalues by `a` afterward, and therefore
round-trips: whenever the solver is exact (eigenvalues of the scaled
problem are the original eigenvalues scaled by `1/a`), the final `D` holds
the original eigenvalues. -/
theorem stedc_scales_unconditionally (solve : List ℚ → List ℚ → List ℚ)
    (a : ℚ) (ha : a ≠ 0) (D E : List ℚ) :
    ∃ r, stedc solve (FpVal.finite a) D E = Except.ok r ∧
      r.solveArgs = some (D.map (fun x => x / a), E.map (fun x => x / a)) ∧
      r.D = (solve (D.map (fun x => x / a)) (E.map (fun x => x / a))).map
              (fun x => x * a) ∧
      (∀ eig : List ℚ,
        solve (D.map (fun x => x / a)) (E.map (fun x => x / a))
          = eig.map (fun x => x / a) →
        r.D = eig) := by
  have hdown : ∀ v : List ℚ, lascl a 1 v = v.map (fun x => x / a) := by
    intro v
    unfold lascl
    exact List.map_congr_left (fun x _ => by rw [mul_one_div])
  have hup : ∀ v : List ℚ, lascl 1 a v = v.map (fun x => x * a) := by
    intro v
    unfold lascl
    exact List.map_congr_left (fun x _ => by rw [div_one])
  refine ⟨{ solveArgs := some (D.map (fun x => x / a), E.map (fun x => x / a))
            D := (solve (D.map (fun x => x / a)) (E.map (fun x => x / a))).map
                   (fun x => x * a)
            E := E.map (fun x => x / a)
            qWritten := true }, ?_, rfl, rfl, ?_⟩
  · simp [stedc, ha, hdown, hup]
  · intro eig heig
    simp only [heig, List.map_map]
    calc List.map ((fun x => x * a) ∘ fun x => x / a) eig
        = List.map (fun x => x / a * a) eig := rfl
    _ = List.map id eig := List.map_congr_left (fun x _ => div_mul_cancel₀ x ha)
    _ = eig := List.map_id eig

/-- Witness for `stedc_scales_unconditionally` at `a = 2`, `D = [2]`,
`E = []`, with the solver that returns its first argument (exact for a
diagonal matrix): the run succeeds and the final `D` is the original
eigenvalue list `[2]`. -/
theorem stedc_scales_unconditionally_witness :
    ∃ r, stedc (fun d _ => d) (FpVal.finite 2) [2] [] = Except.ok r ∧
      r.D = [2] := by
  obtain ⟨r, hr, _h1, _h2, h3⟩ :=
    stedc_scales_unconditionally (fun d _ => d) 2 (by norm_num) [2] []
  exact ⟨r, hr, h3 [2] rfl⟩

/-- C10: if the max-norm of the tridiagonal input is exactly zero, `stedc`
returns immediately with `D`, `E` unchanged, `Q` untouched and the solve
never invoked; if the norm is infinite or NaN, it throws the domain error
before producing any modified state. -/
theorem stedc_zero_or_nonfinite_norm (solve : List ℚ → List ℚ → List ℚ)
    (D E : List ℚ) :
    stedc solve (FpVal.finite 0) D E
      = Except.ok { solveArgs := none, D := D, E := E, qWritten := false } ∧
    stedc solve FpVal.inf D E
      = Except.error "Input matrix contains Inf or NaN" ∧
    stedc solve FpVal.nan D E
      = Except.error "Input matrix contains Inf or NaN" := by
  exact ⟨by simp [stedc], rfl, rfl⟩

/-! ## The info output of the gesv LAPACK-compatibility wrapper (C1)

From `lapack_api/lapack_gesv.cc`: after calling `slate::gesv`, the wrapper
executes `*info = 0;` unconditionally, annotated
`// todo:  get a real value for info`.  The matching `potrf` driver
declares `@retval >0 for return value = i, the leading minor of order i of
A is not positive definite` yet returns `void`, annotated
`// todo: return value for errors?`.
-/

/-- The value stored into the `info` output parameter by `slate_gesv`
(line `*info = 0;`): it does not depend on the input system at all. -/
def slate_gesv_info (_n _nrhs : ℕ) (_a _b : List (List ℚ)) : Int :=
  0

/-- One step of Gaussian elimination on an m-by-m system held as a list of
rows: pick a row with nonzero leading entry as pivot (row pivoting; over
exact rationals singularity detection agrees with partial pivoting),
eliminate the leading column from the remaining rows and drop it; `none`
when the whole leading column is zero, i.e. the step is singular. -/
def elimStep (rows : List (List ℚ)) : Option (List (List ℚ)) :=
  match rows.findIdx? (fun r => r.headD 0 != 0) with
  | Option.none => Option.none
  | Option.some i =>
      let pr := rows.getD i []
      let p := pr.headD 0
      let rest := rows.eraseIdx i
      Option.some (rest.map (fun r =>
        (List.zipWith (fun x y => x - (r.headD 0 / p) * y) r pr).tail))

/-- Modelled from the spec: the diagnostic the claim requires the gesv
entry point to report — `0` on success and otherwise the 1-based index of
the first elimination step whose leading minor is singular (first
entirely-zero pivot column), the factorization `slate::gesv` itself not
being under the sources examined here. -/
def gesvExpectedInfoAux (step : ℕ) : ℕ → List (List ℚ) → ℕ
  | 0, _ => 0
  | fuel+1, rows =>
      match elimStep rows with
      | Option.none => step
      | Option.some rest => gesvExpectedInfoAux (step+1) fuel rest

/-- Modelled from the spec: expected info for an n-by-n system. -/
def gesvExpectedInfo (n : ℕ) (a : List (List ℚ)) : ℕ :=
  gesvExpectedInfoAux 1 n a

/-- C1 (refuting the claim on the code): for the singular 1-by-1 system
`a = [[0]]`, `b = [[1]]`, the factorization fails at leading minor 1 — the
expected info is `1` — yet the wrapper stores `info = 0`; on the
nonsingular system `a = [[1]]` the expected info is `0`, so the stored
value cannot distinguish the two. -/
theorem gesv_info_stuck_at_zero :
    slate_gesv_info 1 1 [[0]] [[1]] = 0 ∧
    gesvExpectedInfo 1 [[0]] = 1 ∧
    gesvExpectedInfo 1 [[1]] = 0 ∧
    (0 : Int) ≠ (1 : Int) := by
  refine ⟨rfl, ?_, ?_, by decide⟩ <;> rfl

end Slate
